import Mathlib

/-!
Verification development for `load_data.py`: a shallow embedding of the
manifest-based dataset pipeline (`ImageDataset` and `DataSplitter`) and proofs
of its specified properties.

Python strings are modelled as `List Char` (`PyStr`).  File contents are a
single `PyStr`; reading a text file in mode `'r'` performs universal-newline
translation and yields lines that keep their terminating `'\n'`, which we model
with `univNewlines` and `pyLines`.
-/

namespace LoadData

abbrev PyStr := List Char

/-- The characters removed by Python's `str.strip()`: CPython's
`Py_UNICODE_ISSPACE` set, i.e. the code points whose Unicode category is
Zs, Zl or Zp or whose bidirectional class is WS, B or S — U+0009..U+000D,
U+001C..U+001F, space, U+0085 (NEL), U+00A0 (NBSP), U+1680,
U+2000..U+200A, U+2028, U+2029, U+202F, U+205F and U+3000. -/
def isPyWhitespace (c : Char) : Bool :=
  (0x09 ≤ c.toNat && c.toNat ≤ 0x0d) ||
    (0x1c ≤ c.toNat && c.toNat ≤ 0x1f) ||
    c.toNat = 0x20 || c.toNat = 0x85 || c.toNat = 0xa0 || c.toNat = 0x1680 ||
    (0x2000 ≤ c.toNat && c.toNat ≤ 0x200a) ||
    c.toNat = 0x2028 || c.toNat = 0x2029 || c.toNat = 0x202f ||
    c.toNat = 0x205f || c.toNat = 0x3000

/-- Python `s.strip()`: drop leading and trailing whitespace. -/
def pyStrip (s : PyStr) : PyStr :=
  ((s.dropWhile isPyWhitespace).reverse.dropWhile isPyWhitespace).reverse

/-- Helper for `pySplitSpace`; `acc` holds the current chunk reversed. -/
def pySplitAux : PyStr → PyStr → List PyStr
  | acc, [] => [acc.reverse]
  | acc, c :: rest =>
    if c = ' ' then acc.reverse :: pySplitAux [] rest
    else pySplitAux (c :: acc) rest

/-- Python `line.split(" ")`: split at every single space, keeping empty
chunks (so the result always has one more chunk than there are spaces). -/
def pySplitSpace (s : PyStr) : List PyStr :=
  pySplitAux [] s

/-- Helper for `pyLines`; `acc` holds the current line reversed. -/
def pyLinesAux : PyStr → PyStr → List PyStr
  | acc, [] => if acc = [] then [] else [acc.reverse]
  | acc, c :: rest =>
    if c = '\n' then ('\n' :: acc).reverse :: pyLinesAux [] rest
    else pyLinesAux (c :: acc) rest

/-- Python `for line in file`: lines of the text, each keeping its `'\n'`
terminator; a final segment with no terminator is still yielded; an empty
text yields no lines. -/
def pyLines (s : PyStr) : List PyStr :=
  pyLinesAux [] s

/-- Universal-newline translation performed by `open(path, 'r')`:
`"\r\n"` and `"\r"` both become `"\n"`. -/
def univNewlines : PyStr → PyStr
  | [] => []
  | [c] => if c = '\r' then ['\n'] else [c]
  | c :: d :: rest =>
    if c = '\r' then
      if d = '\n' then '\n' :: univNewlines rest
      else '\n' :: univNewlines (d :: rest)
    else c :: univNewlines (d :: rest)

/-- One iteration of the manifest-reading loop in `ImageDataset.__init__`
(load_data.py lines 24-26): `parts = line.split(" ")`, then
`parts[0]` and `parts[1].strip()`.  `none` models the `IndexError` raised
when the line has fewer than two chunks, i.e. contains no space. -/
def parseLine (line : PyStr) : Option (PyStr × PyStr) :=
  match pySplitSpace line with
  | p0 :: p1 :: _ => some (p0, pyStrip p1)
  | _ => none

/-- The whole reading loop: parse every line, collecting the parallel
`image_filenames` and `labels` arrays; any failing line aborts construction. -/
def parseLines : List PyStr → Option (List PyStr × List PyStr)
  | [] => some ([], [])
  | line :: rest =>
    match parseLine line, parseLines rest with
    | some (p, l), some (ps, ls) => some (p :: ps, l :: ls)
    | _, _ => none

/-- Reading a manifest file with contents `content`: universal-newline
translation, line iteration, then the parsing loop of `__init__`. -/
def loadManifest (content : PyStr) : Option (List PyStr × List PyStr) :=
  parseLines (pyLines (univNewlines content))

/-- Embeds `ImageDataset.convert_label_to_ix` (load_data.py lines 64-67):
`classes = list(set(label_list))` followed by
`{class_name: idx for idx, class_name in enumerate(classes)}`.
The argument `classes` stands for `list(set(label_list))`, whose order is
implementation-defined; `SetEnumOf` below states which lists are valid
values for it.  The resulting dict is an association list. -/
def convert_label_to_ix (classes : List PyStr) : List (PyStr × Nat) :=
  classes.enum.map (fun p => (p.2, p.1))

/-- States that `classes` is a possible value of Python's `list(set(label_list))`:
duplicate-free and containing exactly the members of `label_list`.
The enumeration order is NOT constrained (CPython hash order). -/
def SetEnumOf (label_list classes : List PyStr) : Prop :=
  classes.Nodup ∧ ∀ s : PyStr, s ∈ classes ↔ s ∈ label_list

/-- Python list indexing `l[i]` with an `int` index: a negative index is
offset by `len(l)`; the result is `none` exactly when Python raises
`IndexError` (effective index outside `[0, len(l))`). -/
def pyIndex {α : Type} (l : List α) (i : Int) : Option α :=
  let j : Int := if i < 0 then (l.length : Int) + i else i
  if 0 ≤ j then l.get? j.toNat else none

/-- Embeds `ImageDataset.__getitem__` (load_data.py lines 40-62).
The pixel data is irrelevant to every specified property, so the image is
not materialised; instead the second component records the list of file
paths passed to `Image.open`, i.e. the file I/O the call performs.
Execution order follows the source: `self.image_filenames[index]`
(IndexError here aborts before any I/O), then `Image.open(img_path)`,
then `self.class_to_idx[self.labels[index]]` (KeyError modelled as
`none`), then the sample dict `{label, filepath}`. -/
def getitem (image_filenames labels : List PyStr)
    (class_to_idx : List (PyStr × Nat)) (index : Int) :
    Option (Nat × PyStr) × List PyStr :=
  match pyIndex image_filenames index with
  | none => (none, [])
  | some img_path =>
    match pyIndex labels index with
    | none => (none, [img_path])
    | some lab =>
      match class_to_idx.lookup lab with
      | none => (none, [img_path])
      | some ix => (some (ix, img_path), [img_path])

/-- Embeds `DataSplitter.save_file_paths` (load_data.py lines 108-111):
`open(file_path, "w")` truncates any existing content `old` of the file,
then for each `path, label` in `zip(file_paths, labels)` the line
`f"{path} {label}\n"` is written.  The returned value is the file's full
contents after the call. -/
def save_file_paths (old : PyStr) (file_paths labels : List PyStr) : PyStr :=
  let truncated : PyStr := []
  truncated ++ (file_paths.zip labels).flatMap (fun pl => pl.1 ++ ' ' :: (pl.2 ++ ['\n']))

/-- Result quadruple of one `sklearn.model_selection.train_test_split` call:
`(X_train, X_test, y_train, y_test)`. -/
structure TTSResult where
  X_train : List PyStr
  X_test : List PyStr
  y_train : List PyStr
  y_test : List PyStr

/-- The external `train_test_split` collaborator, taking the feature list,
the label list and the absolute held-out (test) size. -/
def Splitter : Type :=
  List PyStr → List PyStr → Nat → TTSResult

/-- Modelled from the spec: the contract of the external (sklearn)
`train_test_split` collaborator, which is not part of this repository.
Per the spec's `split` operation, on lists of equal length `n` with a
held-out size `t ≤ n` it returns a test part of exactly `t` samples and a
train part of the remaining `n - t`, the two parts together being a
permutation of the input samples (pairs are kept aligned). -/
def SplitterSpec (tts : Splitter) : Prop :=
  ∀ (X y : List PyStr) (t : Nat), X.length = y.length → t ≤ X.length →
    (tts X y t).X_train.length = X.length - t ∧
    (tts X y t).X_test.length = t ∧
    (tts X y t).y_train.length = X.length - t ∧
    (tts X y t).y_test.length = t ∧
    ((tts X y t).X_train.zip (tts X y t).y_train ++
      (tts X y t).X_test.zip (tts X y t).y_test).Perm (X.zip y)

/-- In `DataSplitter.__init__`: `self.validation_size = 2000`. -/
def validation_size : Nat := 2000

/-- In `DataSplitter.__init__`: `self.test_size = 3000`. -/
def test_size : Nat := 3000

/-- Embeds `DataSplitter.create_dataset` (load_data.py lines 113-119).
First call: `test_size=(self.validation_size + self.test_size)`, an
absolute count.  Second call: `test_size=(self.test_size /
(self.validation_size + self.test_size))`, a fraction, which sklearn
converts to the absolute count `ceil(fraction * n_remaining)`; the
fraction is modelled exactly in `ℚ` (for `n_remaining = 5000` the
double-precision computation also yields exactly 3000).  Returns the
`(paths, labels)` pairs written to `train_set.txt`, `validation_set.txt`
and `test_set.txt` in that order; note the second call binds
`X_validation, X_test = train_test_split(...)`, so the validation set is
the second call's train part. -/
def create_dataset (tts : Splitter) (files labels : List PyStr) :
    (List PyStr × List PyStr) × (List PyStr × List PyStr) × (List PyStr × List PyStr) :=
  let r1 := tts files labels (validation_size + test_size)
  let t2 : Nat :=
    ⌈((test_size : ℚ) / ((validation_size : ℚ) + (test_size : ℚ))) * (r1.X_test.length : ℚ)⌉.toNat
  let r2 := tts r1.X_test r1.y_test t2
  ((r1.X_train, r1.y_train), (r2.X_train, r2.y_train), (r2.X_test, r2.y_test))

/-- The fields `ImageDataset.__init__` stores on `self`. -/
structure ImageDataset where
  root_dir : PyStr
  train : Bool
  image_filenames : List PyStr
  labels : List PyStr
  class_to_idx : List (PyStr × Nat)

/-- The hard-coded manifest name `self.training_file = "train_set.txt"`. -/
def trainSetTxt : PyStr :=
  ['t', 'r', 'a', 'i', 'n', '_', 's', 'e', 't', '.', 't', 'x', 't']

/-- Embeds `ImageDataset.__init__` (load_data.py lines 10-28).  `readFile`
maps a file name to its contents (the filesystem); `classes` stands for
the iteration order of `set(self.labels)` used by `convert_label_to_ix`
(constrained to `SetEnumOf` in the theorems).  The constructor always
opens `self.training_file = "train_set.txt"`; `root_dir` and `train` are
stored but do not influence what is read.  `none` models the
`IndexError` escaping `__init__` on an unparsable line. -/
def imageDatasetInit (readFile : PyStr → PyStr) (classes : List PyStr)
    (root_dir : PyStr) (train : Bool) : Option ImageDataset :=
  match loadManifest (readFile trainSetTxt) with
  | none => none
  | some (fns, labs) => some ⟨root_dir, train, fns, labs, convert_label_to_ix classes⟩

/-! ## Lemmas about `split(" ")` and the per-line parse -/

theorem takeWhile_of_no_space {s : PyStr} (h : ' ' ∉ s) :
    s.takeWhile (fun c => c != ' ') = s := by
  induction s with
  | nil => rfl
  | cons c rest ih =>
    have hc : ¬ c = ' ' := fun hc => h (by simp [hc])
    have hr : ' ' ∉ rest := fun hm => h (List.mem_cons_of_mem _ hm)
    simp [List.takeWhile_cons, hc, ih hr]

theorem pySplitAux_no_space {s : PyStr} (h : ' ' ∉ s) :
    ∀ acc : PyStr, pySplitAux acc s = [acc.reverse ++ s] := by
  induction s with
  | nil => intro acc; simp [pySplitAux]
  | cons c rest ih =>
    intro acc
    have hc : ¬ c = ' ' := fun hc => h (by simp [hc])
    have hr : ' ' ∉ rest := fun hm => h (List.mem_cons_of_mem _ hm)
    simp [pySplitAux, hc, ih hr]

theorem pySplitAux_with_space {s : PyStr} (h : ' ' ∈ s) :
    ∀ acc : PyStr,
      pySplitAux acc s =
        (acc.reverse ++ s.takeWhile (fun c => c != ' ')) ::
          pySplitSpace (List.tail (s.dropWhile (fun c => c != ' '))) := by
  induction s with
  | nil => cases h
  | cons c rest ih =>
    intro acc
    by_cases hc : c = ' '
    · subst hc
      simp [pySplitAux, pySplitSpace, List.takeWhile_cons, List.dropWhile_cons]
    · have hr : ' ' ∈ rest := by
        cases h with
        | head => exact absurd rfl hc
        | tail _ hm => exact hm
      simp [pySplitAux, hc, ih hr, List.takeWhile_cons, List.dropWhile_cons]

theorem pySplitSpace_head (s : PyStr) :
    ∃ t : List PyStr, pySplitSpace s = s.takeWhile (fun c => c != ' ') :: t := by
  by_cases h : ' ' ∈ s
  · exact ⟨_, by simpa using pySplitAux_with_space h []⟩
  · refine ⟨[], ?_⟩
    have := pySplitAux_no_space h []
    simp only [pySplitSpace, this, List.reverse_nil, List.nil_append]
    rw [takeWhile_of_no_space h]

theorem parseLine_eq_none_iff (line : PyStr) :
    parseLine line = none ↔ ' ' ∉ line := by
  by_cases h : ' ' ∈ line
  · have h1 : pySplitSpace line =
        (line.takeWhile (fun c => c != ' ')) ::
          pySplitSpace (List.tail (line.dropWhile (fun c => c != ' '))) := by
      simpa using pySplitAux_with_space h []
    obtain ⟨t, ht⟩ := pySplitSpace_head (List.tail (line.dropWhile (fun c => c != ' ')))
    simp [parseLine, h1, ht, h]
  · have h1 : pySplitSpace line = [line] := by
      simpa using pySplitAux_no_space h []
    simp [parseLine, h1, h]

theorem parseLine_of_space {line : PyStr} (h : ' ' ∈ line) :
    parseLine line =
      some (line.takeWhile (fun c => c != ' '),
        pyStrip ((List.tail (line.dropWhile (fun c => c != ' '))).takeWhile
          (fun c => c != ' '))) := by
  have h1 : pySplitSpace line =
      (line.takeWhile (fun c => c != ' ')) ::
        pySplitSpace (List.tail (line.dropWhile (fun c => c != ' '))) := by
    simpa using pySplitAux_with_space h []
  obtain ⟨t, ht⟩ := pySplitSpace_head (List.tail (line.dropWhile (fun c => c != ' ')))
  simp [parseLine, h1, ht]

/-! ## Claims C3 and C7 -/

/-- C3 (amended): for every manifest line containing at least one space, the
reading loop splits the line at every space and keeps `parts[0]` and
`parts[1]`: the parsed path is the text before the first space, and the
parsed label is the text strictly between the first and the second space
(the remainder of the line when there is no second space), stripped of
leading and trailing CPython `str.strip()` whitespace (`pyStrip`).  In
particular a label containing an interior space is NOT preserved in full,
contrary to the original claim. -/
theorem claim_C3 (line : PyStr) (h : ' ' ∈ line) :
    parseLine line =
      some (line.takeWhile (fun c => c != ' '),
        pyStrip ((List.tail (line.dropWhile (fun c => c != ' '))).takeWhile
          (fun c => c != ' '))) :=
  parseLine_of_space h

theorem claim_C3_witness :
    ' ' ∈ (['p', ' ', 'a', ' ', 'b'] : PyStr) ∧
      parseLine ['p', ' ', 'a', ' ', 'b'] =
        some ((['p', ' ', 'a', ' ', 'b'] : PyStr).takeWhile (fun c => c != ' '),
          pyStrip ((List.tail ((['p', ' ', 'a', ' ', 'b'] : PyStr).dropWhile
            (fun c => c != ' '))).takeWhile (fun c => c != ' '))) :=
  ⟨by decide, claim_C3 ['p', ' ', 'a', ' ', 'b'] (by decide)⟩

/-- C3 counterexample: on the line `"p a b"` the code parses the label as
`"a"`, not as the full right-trimmed remainder `"a b"` that the claim
requires. -/
theorem claim_C3_counterexample :
    parseLine ['p', ' ', 'a', ' ', 'b'] = some (['p'], ['a']) ∧
      parseLine ['p', ' ', 'a', ' ', 'b'] ≠ some (['p'], ['a', ' ', 'b']) := by
  decide

theorem parseLines_eq_none_iff (ls : List PyStr) :
    parseLines ls = none ↔ ∃ line, line ∈ ls ∧ parseLine line = none := by
  induction ls with
  | nil => simp [parseLines]
  | cons l rest ih =>
    constructor
    · intro h
      by_cases h1 : parseLine l = none
      · exact ⟨l, List.mem_cons_self l rest, h1⟩
      · obtain ⟨pl, hpl⟩ := Option.ne_none_iff_exists'.mp h1
        by_cases h2 : parseLines rest = none
        · obtain ⟨line, hmem, hline⟩ := ih.mp h2
          exact ⟨line, List.mem_cons_of_mem _ hmem, hline⟩
        · obtain ⟨pr, hpr⟩ := Option.ne_none_iff_exists'.mp h2
          exfalso
          cases pl with
          | mk p lb =>
            cases pr with
            | mk ps lbs => simp [parseLines, hpl, hpr] at h
    · rintro ⟨line, hmem, hline⟩
      cases hmem with
      | head =>
        cases h2 : parseLines rest with
        | none => simp [parseLines, hline, h2]
        | some pr => cases pr; simp [parseLines, hline, h2]
      | tail _ hmem' =>
        have h2 : parseLines rest = none := ih.mpr ⟨line, hmem', hline⟩
        cases h1 : parseLine l with
        | none => simp [parseLines, h1, h2]
        | some pl => cases pl; simp [parseLines, h1, h2]

/-- C7: reading a manifest fails (with the IndexError raised at `parts[1]`)
if and only if some line of the file has no space separator; when every
line contains a space, construction succeeds. -/
theorem claim_C7 (content : PyStr) :
    loadManifest content = none ↔
      ∃ line ∈ pyLines (univNewlines content), ' ' ∉ line := by
  simp only [loadManifest, parseLines_eq_none_iff, parseLine_eq_none_iff]

/-! ## Lemmas about stripping, line iteration and newline translation -/

theorem dropWhile_of_forall_false {p : Char → Bool} {s : PyStr}
    (h : ∀ c ∈ s, p c = false) : s.dropWhile p = s := by
  cases s with
  | nil => rfl
  | cons c rest => simp [List.dropWhile_cons, h c (List.mem_cons_self c rest)]

theorem pyStrip_append_newline {l : PyStr} (h : ∀ c ∈ l, isPyWhitespace c = false) :
    pyStrip (l ++ ['\n']) = l := by
  cases l with
  | nil => rfl
  | cons c rest =>
    have hc : isPyWhitespace c = false := h c (List.mem_cons_self c rest)
    have h1 : ((c :: rest) ++ ['\n']).dropWhile isPyWhitespace = (c :: rest) ++ ['\n'] := by
      simp [List.dropWhile_cons, hc]
    have h3 : List.dropWhile isPyWhitespace (rest.reverse ++ [c]) = rest.reverse ++ [c] := by
      apply dropWhile_of_forall_false
      intro x hx
      apply h
      rcases List.mem_append.mp hx with h5 | h6
      · exact List.mem_cons_of_mem _ (List.mem_reverse.mp h5)
      · simp only [List.mem_singleton] at h6
        simp [h6]
    have h4 : isPyWhitespace '\n' = true := by decide
    simp only [pyStrip, h1, List.reverse_append, List.reverse_cons, List.reverse_nil,
      List.nil_append, List.singleton_append, List.dropWhile_cons, h4, if_true, h3]
    simp

theorem takeWhile_append_space {p : PyStr} (h : ' ' ∉ p) (r : PyStr) :
    (p ++ ' ' :: r).takeWhile (fun c => c != ' ') = p := by
  induction p with
  | nil => simp [List.takeWhile_cons]
  | cons c rest ih =>
    have hc : ¬ c = ' ' := fun hc => h (by simp [hc])
    have hr : ' ' ∉ rest := fun hm => h (List.mem_cons_of_mem _ hm)
    simp [List.takeWhile_cons, hc, ih hr]

theorem dropWhile_append_space {p : PyStr} (h : ' ' ∉ p) (r : PyStr) :
    (p ++ ' ' :: r).dropWhile (fun c => c != ' ') = ' ' :: r := by
  induction p with
  | nil => simp [List.dropWhile_cons]
  | cons c rest ih =>
    have hc : ¬ c = ' ' := fun hc => h (by simp [hc])
    have hr : ' ' ∉ rest := fun hm => h (List.mem_cons_of_mem _ hm)
    simp [List.dropWhile_cons, hc, ih hr]

theorem univNewlines_eq_self {s : PyStr} (h : '\r' ∉ s) : univNewlines s = s := by
  induction s with
  | nil => rfl
  | cons c rest ih =>
    have hc : ¬ c = '\r' := fun hc => h (by simp [hc])
    have hr : '\r' ∉ rest := fun hm => h (List.mem_cons_of_mem _ hm)
    cases rest with
    | nil => simp [univNewlines, hc]
    | cons d rest2 => simp [univNewlines, hc, ih hr]

theorem pyLinesAux_line {l : PyStr} (h : '\n' ∉ l) (rest : PyStr) :
    ∀ acc : PyStr, pyLinesAux acc (l ++ '\n' :: rest) =
      (acc.reverse ++ l ++ ['\n']) :: pyLinesAux [] rest := by
  induction l with
  | nil => intro acc; simp [pyLinesAux]
  | cons c l ih =>
    intro acc
    have hc : ¬ c = '\n' := fun hc => h (by simp [hc])
    have hl : '\n' ∉ l := fun hm => h (List.mem_cons_of_mem _ hm)
    simp [pyLinesAux, hc, ih hl, List.append_assoc]

theorem pyLines_flatMap_lines (pairs : List (PyStr × PyStr))
    (h : ∀ pl ∈ pairs, '\n' ∉ pl.1 ∧ '\n' ∉ pl.2) :
    pyLines (pairs.flatMap (fun pl => pl.1 ++ ' ' :: (pl.2 ++ ['\n']))) =
      pairs.map (fun pl => pl.1 ++ ' ' :: (pl.2 ++ ['\n'])) := by
  induction pairs with
  | nil => rfl
  | cons pl rest ih =>
    obtain ⟨hp, hl⟩ := h pl (List.mem_cons_self pl rest)
    have hbody : '\n' ∉ (pl.1 ++ ' ' :: pl.2) := by
      intro hm
      rcases List.mem_append.mp hm with h1 | h2
      · exact hp h1
      · rcases List.mem_cons.mp h2 with h3 | h4
        · exact absurd h3 (by decide)
        · exact hl h4
    have hrec := ih (fun q hq => h q (List.mem_cons_of_mem _ hq))
    have hshape : (pl :: rest).flatMap (fun pl => pl.1 ++ ' ' :: (pl.2 ++ ['\n'])) =
        (pl.1 ++ ' ' :: pl.2) ++
          '\n' :: rest.flatMap (fun pl => pl.1 ++ ' ' :: (pl.2 ++ ['\n'])) := by
      simp [List.flatMap_cons, List.append_assoc]
    unfold pyLines at hrec ⊢
    rw [hshape, pyLinesAux_line hbody, List.map_cons, hrec]
    simp [List.append_assoc]

theorem parseLine_manifest {p l : PyStr}
    (hp : ∀ c ∈ p, isPyWhitespace c = false)
    (hl : ∀ c ∈ l, isPyWhitespace c = false) :
    parseLine (p ++ ' ' :: (l ++ ['\n'])) = some (p, l) := by
  have hps : ' ' ∉ p := fun hm => absurd (hp ' ' hm) (by decide)
  have hls : ' ' ∉ l ++ ['\n'] := by
    intro hm
    rcases List.mem_append.mp hm with h1 | h2
    · exact absurd (hl ' ' h1) (by decide)
    · simp at h2
  have hmem : ' ' ∈ p ++ ' ' :: (l ++ ['\n']) := by simp
  rw [parseLine_of_space hmem, takeWhile_append_space hps, dropWhile_append_space hps]
  simp only [List.tail_cons]
  rw [takeWhile_of_no_space hls, pyStrip_append_newline hl]

theorem parseLines_map_line (pairs : List (PyStr × PyStr))
    (h : ∀ pl ∈ pairs, (∀ c ∈ pl.1, isPyWhitespace c = false) ∧
      (∀ c ∈ pl.2, isPyWhitespace c = false)) :
    parseLines (pairs.map (fun pl => pl.1 ++ ' ' :: (pl.2 ++ ['\n']))) =
      some (pairs.map Prod.fst, pairs.map Prod.snd) := by
  induction pairs with
  | nil => rfl
  | cons pl rest ih =>
    obtain ⟨hp, hl⟩ := h pl (List.mem_cons_self pl rest)
    have hline := parseLine_manifest hp hl
    have hrec := ih (fun q hq => h q (List.mem_cons_of_mem _ hq))
    simp [parseLines, hline, hrec]

theorem cr_not_mem_save {ps ls : List PyStr}
    (hp : ∀ p ∈ ps, ∀ c ∈ p, isPyWhitespace c = false)
    (hl : ∀ l ∈ ls, ∀ c ∈ l, isPyWhitespace c = false) (old : PyStr) :
    '\r' ∉ save_file_paths old ps ls := by
  intro hm
  simp only [save_file_paths, List.nil_append, List.mem_flatMap] at hm
  obtain ⟨pl, hmem, hin⟩ := hm
  obtain ⟨hmp, hml⟩ := List.of_mem_zip hmem
  rcases List.mem_append.mp hin with h1 | h2
  · exact absurd (hp pl.1 hmp '\r' h1) (by decide)
  · rcases List.mem_cons.mp h2 with h3 | h4
    · exact absurd h3 (by decide)
    · rcases List.mem_append.mp h4 with h5 | h6
      · exact absurd (hl pl.2 hml '\r' h5) (by decide)
      · simp at h6

/-! ## Claims C2 and C9 -/

/-- C2 (amended): for samples whose paths and labels contain no characters
of CPython's `str.strip()` whitespace set (`isPyWhitespace`: U+0009..U+000D,
U+001C..U+001F, space, NEL, NBSP, U+1680, U+2000..U+200A, U+2028, U+2029,
U+202F, U+205F, U+3000), writing them with `save_file_paths` and reading
the file back with the `ImageDataset.__init__` loop recovers a dataset of
the same size whose (path, label) pairs are a permutation of (indeed equal
to) the originals.  The original claim's hypothesis — only space characters
excluded — is too weak: a label with a trailing tab (or any other trailing
strip-whitespace, or an embedded newline) is not recovered (see the
counterexample). -/
theorem claim_C2 (old : PyStr) (ps ls : List PyStr) (hlen : ps.length = ls.length)
    (hp : ∀ p ∈ ps, ∀ c ∈ p, isPyWhitespace c = false)
    (hl : ∀ l ∈ ls, ∀ c ∈ l, isPyWhitespace c = false) :
    ∃ fns labs : List PyStr,
      loadManifest (save_file_paths old ps ls) = some (fns, labs) ∧
        fns.length = ps.length ∧ (fns.zip labs).Perm (ps.zip ls) := by
  refine ⟨ps, ls, ?_, rfl, List.Perm.refl _⟩
  have hcr := cr_not_mem_save hp hl old
  have hnl : ∀ pl ∈ ps.zip ls, '\n' ∉ pl.1 ∧ '\n' ∉ pl.2 := by
    intro pl hmem
    obtain ⟨hmp, hml⟩ := List.of_mem_zip hmem
    constructor
    · exact fun hm => absurd (hp pl.1 hmp '\n' hm) (by decide)
    · exact fun hm => absurd (hl pl.2 hml '\n' hm) (by decide)
  have hws : ∀ pl ∈ ps.zip ls, (∀ c ∈ pl.1, isPyWhitespace c = false) ∧
      (∀ c ∈ pl.2, isPyWhitespace c = false) := by
    intro pl hmem
    obtain ⟨hmp, hml⟩ := List.of_mem_zip hmem
    exact ⟨hp pl.1 hmp, hl pl.2 hml⟩
  have hsave : save_file_paths old ps ls =
      (ps.zip ls).flatMap (fun pl => pl.1 ++ ' ' :: (pl.2 ++ ['\n'])) := by
    simp [save_file_paths]
  unfold loadManifest
  rw [hsave, univNewlines_eq_self (hsave ▸ hcr)]
  rw [pyLines_flatMap_lines _ hnl, parseLines_map_line _ hws]
  rw [List.map_fst_zip ps ls (le_of_eq hlen), List.map_snd_zip ps ls (le_of_eq hlen.symm)]

theorem claim_C2_witness :
    (([['p', '1'], ['p', '2']] : List PyStr).length =
        ([['a'], ['b']] : List PyStr).length) ∧
      (∀ p ∈ ([['p', '1'], ['p', '2']] : List PyStr), ∀ c ∈ p, isPyWhitespace c = false) ∧
      (∀ l ∈ ([['a'], ['b']] : List PyStr), ∀ c ∈ l, isPyWhitespace c = false) ∧
      ∃ fns labs : List PyStr,
        loadManifest (save_file_paths ['O'] [['p', '1'], ['p', '2']] [['a'], ['b']]) =
            some (fns, labs) ∧
          fns.length = ([['p', '1'], ['p', '2']] : List PyStr).length ∧
          (fns.zip labs).Perm
            (([['p', '1'], ['p', '2']] : List PyStr).zip ([['a'], ['b']] : List PyStr)) :=
  ⟨by decide, by decide, by decide,
    claim_C2 ['O'] [['p', '1'], ['p', '2']] [['a'], ['b']] (by decide) (by decide) (by decide)⟩

/-- C2 counterexample: the path `"p"` and the label `"a\t"` contain no space
characters, yet persisting and re-loading turns the label into `"a"`
(`parts[1].strip()` removes the trailing tab), so the loaded pairs are not
a permutation of the originals. -/
theorem claim_C2_counterexample :
    loadManifest (save_file_paths [] [['p']] [['a', '\t']]) = some ([['p']], [['a']]) ∧
      ¬ List.Perm [((['p'] : PyStr), (['a'] : PyStr))] [(['p'], ['a', '\t'])] := by
  constructor
  · decide
  · decide

/-- C9: `save_file_paths` writes, for each sample of `zip(file_paths,
labels)` in order, exactly the record `path ++ " " ++ label ++ "\n"`; when
paths and labels contain no newline the written file therefore consists of
exactly one such line per sample, in the given order; and because the file
is opened with mode `"w"`, the previous file content is discarded — the
result is independent of it. -/
theorem claim_C9 (old : PyStr) (ps ls : List PyStr) (hlen : ps.length = ls.length) :
    save_file_paths old ps ls =
        (ps.zip ls).flatMap (fun pl => pl.1 ++ ' ' :: (pl.2 ++ ['\n'])) ∧
      (ps.zip ls).length = ps.length ∧
      ((∀ p ∈ ps, '\n' ∉ p) → (∀ l ∈ ls, '\n' ∉ l) →
        pyLines (save_file_paths old ps ls) =
          (ps.zip ls).map (fun pl => pl.1 ++ ' ' :: (pl.2 ++ ['\n']))) ∧
      ∀ old2 : PyStr, save_file_paths old2 ps ls = save_file_paths old ps ls := by
  refine ⟨by simp [save_file_paths], by simp [List.length_zip, hlen], ?_, fun old2 => rfl⟩
  intro hp hl
  have hnl : ∀ pl ∈ ps.zip ls, '\n' ∉ pl.1 ∧ '\n' ∉ pl.2 := by
    intro pl hmem
    obtain ⟨hmp, hml⟩ := List.of_mem_zip hmem
    exact ⟨hp pl.1 hmp, hl pl.2 hml⟩
  have hsave : save_file_paths old ps ls =
      (ps.zip ls).flatMap (fun pl => pl.1 ++ ' ' :: (pl.2 ++ ['\n'])) := by
    simp [save_file_paths]
  rw [hsave, pyLines_flatMap_lines _ hnl]

theorem claim_C9_witness :
    (([['p', '1'], ['p', '2']] : List PyStr).length =
        ([['a'], ['b']] : List PyStr).length) ∧
      (save_file_paths ['O', 'L', 'D'] [['p', '1'], ['p', '2']] [['a'], ['b']] =
          (([['p', '1'], ['p', '2']] : List PyStr).zip
            ([['a'], ['b']] : List PyStr)).flatMap
              (fun pl => pl.1 ++ ' ' :: (pl.2 ++ ['\n'])) ∧
        ((([['p', '1'], ['p', '2']] : List PyStr).zip
          ([['a'], ['b']] : List PyStr)).length =
            ([['p', '1'], ['p', '2']] : List PyStr).length) ∧
        ((∀ p ∈ ([['p', '1'], ['p', '2']] : List PyStr), '\n' ∉ p) →
          (∀ l ∈ ([['a'], ['b']] : List PyStr), '\n' ∉ l) →
          pyLines (save_file_paths ['O', 'L', 'D'] [['p', '1'], ['p', '2']] [['a'], ['b']]) =
            (([['p', '1'], ['p', '2']] : List PyStr).zip
              ([['a'], ['b']] : List PyStr)).map
                (fun pl => pl.1 ++ ' ' :: (pl.2 ++ ['\n']))) ∧
        ∀ old2 : PyStr, save_file_paths old2 [['p', '1'], ['p', '2']] [['a'], ['b']] =
          save_file_paths ['O', 'L', 'D'] [['p', '1'], ['p', '2']] [['a'], ['b']]) :=
  ⟨by decide, claim_C9 ['O', 'L', 'D'] [['p', '1'], ['p', '2']] [['a'], ['b']] (by decide)⟩

/-! ## Lemmas about the label-to-index dictionary -/

theorem lookup_pair_cons {β : Type} (k : PyStr) (b : β) (es : List (PyStr × β)) (x : PyStr) :
    ((k, b) :: es).lookup x = if x = k then some b else es.lookup x := by
  by_cases hx : x = k
  · simp [List.lookup, hx]
  · have hb : (x == k) = false := beq_eq_false_iff_ne.mpr hx
    simp [List.lookup, hb, hx]

theorem convert_eq_enumFrom (cs : List PyStr) :
    convert_label_to_ix cs = (List.enumFrom 0 cs).map (fun p => (p.2, p.1)) := rfl

theorem lookup_enumFrom_get (cs : List PyStr) :
    cs.Nodup → ∀ (n i : Nat) (hi : i < cs.length),
      ((List.enumFrom n cs).map (fun p => (p.2, p.1))).lookup (cs.get ⟨i, hi⟩) =
        some (n + i) := by
  induction cs with
  | nil => intro _ n i hi; exact absurd hi (Nat.not_lt_zero i)
  | cons c rest ih =>
    intro hnd n i hi
    cases i with
    | zero =>
      simp [List.enumFrom_cons, lookup_pair_cons]
    | succ j =>
      have hj : j < rest.length := Nat.lt_of_succ_lt_succ hi
      have hget : (c :: rest).get ⟨j + 1, hi⟩ = rest.get ⟨j, hj⟩ := rfl
      have hne : rest.get ⟨j, hj⟩ ≠ c := by
        intro he
        exact (List.nodup_cons.mp hnd).1 (he ▸ List.get_mem rest j hj)
      rw [hget, List.enumFrom_cons, List.map_cons, lookup_pair_cons, if_neg hne,
        ih (List.nodup_cons.mp hnd).2 (n + 1) j hj]
      congr 1
      omega

theorem lookup_enumFrom_mem (cs : List PyStr) :
    ∀ (n : Nat) (x : PyStr), x ∈ cs →
      ∃ ix : Nat,
        ((List.enumFrom n cs).map (fun p => (p.2, p.1))).lookup x = some ix ∧
          n ≤ ix ∧ ix < n + cs.length := by
  induction cs with
  | nil => intro n x hx; cases hx
  | cons c rest ih =>
    intro n x hx
    rw [List.enumFrom_cons, List.map_cons, lookup_pair_cons]
    by_cases hxc : x = c
    · refine ⟨n, by simp [hxc], Nat.le_refl n, ?_⟩
      simp only [List.length_cons]
      omega
    · have hxr : x ∈ rest := by
        rcases List.mem_cons.mp hx with h1 | h2
        · exact absurd h1 hxc
        · exact h2
      obtain ⟨ix, hlk, hge, hlt⟩ := ih (n + 1) x hxr
      refine ⟨ix, by simp [hxc, hlk], by omega, ?_⟩
      simp only [List.length_cons]
      omega

theorem lookup_enumFrom_none (cs : List PyStr) :
    ∀ (n : Nat) (x : PyStr), x ∉ cs →
      ((List.enumFrom n cs).map (fun p => (p.2, p.1))).lookup x = none := by
  induction cs with
  | nil => intro n x _; rfl
  | cons c rest ih =>
    intro n x hx
    have hxc : ¬ x = c := fun h => hx (by simp [h])
    have hxr : x ∉ rest := fun h => hx (List.mem_cons_of_mem _ h)
    rw [List.enumFrom_cons, List.map_cons, lookup_pair_cons, if_neg hxc]
    exact ih (n + 1) x hxr

theorem lookup_enumFrom_bound (cs : List PyStr) :
    ∀ (n : Nat) (x : PyStr) (ix : Nat),
      ((List.enumFrom n cs).map (fun p => (p.2, p.1))).lookup x = some ix →
        n ≤ ix ∧ ix < n + cs.length := by
  induction cs with
  | nil => intro n x ix h; exact absurd h (by simp [List.lookup])
  | cons c rest ih =>
    intro n x ix h
    rw [List.enumFrom_cons, List.map_cons, lookup_pair_cons] at h
    by_cases hxc : x = c
    · rw [if_pos hxc] at h
      have hn := Option.some.inj h
      simp only [List.length_cons]
      omega
    · rw [if_neg hxc] at h
      have hb := ih (n + 1) x ix h
      simp only [List.length_cons]
      omega

theorem lookup_enumFrom_inj (cs : List PyStr) :
    ∀ (n : Nat) (x y : PyStr) (ix : Nat),
      ((List.enumFrom n cs).map (fun p => (p.2, p.1))).lookup x = some ix →
      ((List.enumFrom n cs).map (fun p => (p.2, p.1))).lookup y = some ix →
        x = y := by
  induction cs with
  | nil => intro n x y ix hx _; exact absurd hx (by simp [List.lookup])
  | cons c rest ih =>
    intro n x y ix hx hy
    rw [List.enumFrom_cons, List.map_cons, lookup_pair_cons] at hx hy
    by_cases hxc : x = c <;> by_cases hyc : y = c
    · rw [hxc, hyc]
    · exfalso
      rw [if_pos hxc] at hx
      rw [if_neg hyc] at hy
      have hn := Option.some.inj hx
      have hb := lookup_enumFrom_bound rest (n + 1) y ix hy
      omega
    · exfalso
      rw [if_neg hxc] at hx
      rw [if_pos hyc] at hy
      have hn := Option.some.inj hy
      have hb := lookup_enumFrom_bound rest (n + 1) x ix hx
      omega
    · rw [if_neg hxc] at hx
      rw [if_neg hyc] at hy
      exact ih (n + 1) x y ix hx hy

/-! ## The spec's sorted LabelIndex, for comparison (claim C4) -/

/-- Lexicographic (code-point) comparison of two strings, `a ≤ b`. -/
def lexLe : PyStr → PyStr → Bool
  | [], _ => true
  | _ :: _, [] => false
  | a :: as, b :: bs => if a < b then true else if b < a then false else lexLe as bs

/-- Modelled from the spec: insertion into a lexicographically sorted label
list (part of the section-9 strategy missing from the code). -/
def insertSorted (x : PyStr) : List PyStr → List PyStr
  | [] => [x]
  | y :: ys => if lexLe x y then x :: y :: ys else y :: insertSorted x ys

/-- Modelled from the spec: lexicographic insertion sort of a label list. -/
def sortLabels : List PyStr → List PyStr
  | [] => []
  | x :: xs => insertSorted x (sortLabels xs)

/-- Modelled from the spec (section 9 strategy, quoted by claim C4): the
LabelIndex obtained by sorting the distinct labels lexicographically before
assigning indices — a function of the distinct-label set alone. -/
def sortedLabelIndex (label_list : List PyStr) : List (PyStr × Nat) :=
  convert_label_to_ix (sortLabels label_list.dedup)

/-! ## Claims C4 and C8 -/

/-- C4 (amended): `convert_label_to_ix` assigns index `i` to the `i`-th label
of the set enumeration `classes` — the mapping is a deterministic function
of the enumeration order the process happens to produce, NOT of the
distinct-label set alone, and the order is not lexicographically sorted
(see the counterexample, where a valid enumeration yields a mapping that
differs from the spec's sorted mapping). -/
theorem claim_C4 (classes : List PyStr) (h : classes.Nodup) (i : Nat)
    (hi : i < classes.length) :
    (convert_label_to_ix classes).lookup (classes.get ⟨i, hi⟩) = some i := by
  rw [convert_eq_enumFrom]
  have := lookup_enumFrom_get classes h 0 i hi
  simpa using this

theorem claim_C4_witness :
    ([['b'], ['a']] : List PyStr).Nodup ∧ 1 < ([['b'], ['a']] : List PyStr).length ∧
      (convert_label_to_ix [['b'], ['a']]).lookup
        (([['b'], ['a']] : List PyStr).get ⟨1, by decide⟩) = some 1 :=
  ⟨by decide, by decide, claim_C4 [['b'], ['a']] (by decide) 1 (by decide)⟩

/-- C4 counterexample: `label_list = ["b", "a"]`.  Both `["b", "a"]` and
`["a", "b"]` are valid enumerations of `set(label_list)`; the code maps the
first enumeration to `{b: 0, a: 1}`, which differs from the spec's sorted
mapping `{a: 0, b: 1}` and from the mapping produced by the other
enumeration — so the index assignment is neither lexicographically sorted
nor independent of the process-specific set-iteration order. -/
theorem claim_C4_counterexample :
    SetEnumOf [['b'], ['a']] [['b'], ['a']] ∧
      SetEnumOf [['b'], ['a']] [['a'], ['b']] ∧
      convert_label_to_ix [['b'], ['a']] ≠ sortedLabelIndex [['b'], ['a']] ∧
      convert_label_to_ix [['b'], ['a']] ≠ convert_label_to_ix [['a'], ['b']] := by
  refine ⟨⟨by decide, fun s => Iff.rfl⟩, ⟨by decide, ?_⟩, by decide, by decide⟩
  intro s
  simp only [List.mem_cons, List.not_mem_nil, or_false]
  tauto

/-- C8: for every manifest label list and every valid set enumeration of it,
the dictionary built by `convert_label_to_ix` is a bijection from the
distinct labels onto the contiguous zero-based range `[0, num_classes)`:
every label of the list has exactly one index, lookup is injective, every
index is below `num_classes`, every index below `num_classes` is hit, and
`num_classes` is the number of distinct labels.  (The model is a pure
value: nothing in `getitem` or elsewhere modifies it after construction.) -/
theorem claim_C8 (label_list classes : List PyStr) (h : SetEnumOf label_list classes) :
    (∀ lab, lab ∈ label_list ↔ ∃ ix, (convert_label_to_ix classes).lookup lab = some ix) ∧
      (∀ l1 l2 ix, (convert_label_to_ix classes).lookup l1 = some ix →
        (convert_label_to_ix classes).lookup l2 = some ix → l1 = l2) ∧
      (∀ lab ix, (convert_label_to_ix classes).lookup lab = some ix →
        ix < classes.length) ∧
      (∀ ix, ix < classes.length →
        ∃ lab, (convert_label_to_ix classes).lookup lab = some ix) ∧
      classes.length = label_list.dedup.length := by
  obtain ⟨hnd, hmem⟩ := h
  refine ⟨?_, ?_, ?_, ?_, ?_⟩
  · intro lab
    constructor
    · intro hin
      obtain ⟨ix, hlk, _, _⟩ := lookup_enumFrom_mem classes 0 lab ((hmem lab).mpr hin)
      exact ⟨ix, by rw [convert_eq_enumFrom]; exact hlk⟩
    · rintro ⟨ix, hlk⟩
      by_contra hout
      have hnot : lab ∉ classes := fun hc => hout ((hmem lab).mp hc)
      rw [convert_eq_enumFrom, lookup_enumFrom_none classes 0 lab hnot] at hlk
      cases hlk
  · intro l1 l2 ix h1 h2
    rw [convert_eq_enumFrom] at h1 h2
    exact lookup_enumFrom_inj classes 0 l1 l2 ix h1 h2
  · intro lab ix hlk
    rw [convert_eq_enumFrom] at hlk
    have := lookup_enumFrom_bound classes 0 lab ix hlk
    omega
  · intro ix hix
    refine ⟨classes.get ⟨ix, hix⟩, ?_⟩
    rw [convert_eq_enumFrom]
    simpa using lookup_enumFrom_get classes hnd 0 ix hix
  · have hperm : List.Perm classes label_list.dedup := by
      refine (List.perm_ext_iff_of_nodup hnd (List.nodup_dedup label_list)).mpr ?_
      intro a
      rw [List.mem_dedup]
      exact hmem a
    exact hperm.length_eq

theorem claim_C8_witness :
    SetEnumOf [['b'], ['a'], ['b']] [['a'], ['b']] ∧
      ((∀ lab, lab ∈ ([['b'], ['a'], ['b']] : List PyStr) ↔
          ∃ ix, (convert_label_to_ix [['a'], ['b']]).lookup lab = some ix) ∧
        (∀ l1 l2 ix, (convert_label_to_ix [['a'], ['b']]).lookup l1 = some ix →
          (convert_label_to_ix [['a'], ['b']]).lookup l2 = some ix → l1 = l2) ∧
        (∀ lab ix, (convert_label_to_ix [['a'], ['b']]).lookup lab = some ix →
          ix < ([['a'], ['b']] : List PyStr).length) ∧
        (∀ ix, ix < ([['a'], ['b']] : List PyStr).length →
          ∃ lab, (convert_label_to_ix [['a'], ['b']]).lookup lab = some ix) ∧
        ([['a'], ['b']] : List PyStr).length =
          ([['b'], ['a'], ['b']] : List PyStr).dedup.length) :=
  have henum : SetEnumOf [['b'], ['a'], ['b']] [['a'], ['b']] := by
    refine ⟨by decide, ?_⟩
    intro s
    simp only [List.mem_cons, List.not_mem_nil, or_false]
    tauto
  ⟨henum, claim_C8 [['b'], ['a'], ['b']] [['a'], ['b']] henum⟩

/-! ## Lemmas about Python indexing and `__getitem__` (claims C5, C6, C10) -/

theorem pyIndex_out_of_range {α : Type} (l : List α) (i : Int)
    (h : i < -(l.length : Int) ∨ (l.length : Int) ≤ i) : pyIndex l i = none := by
  simp only [pyIndex]
  rcases h with h1 | h2
  · have hneg : i < 0 := by omega
    rw [if_pos hneg]
    have hj : ¬ (0 : Int) ≤ (l.length : Int) + i := by omega
    rw [if_neg hj]
  · have hpos : ¬ i < 0 := by omega
    rw [if_neg hpos]
    have hj : (0 : Int) ≤ i := by omega
    rw [if_pos hj]
    exact List.get?_eq_none.mpr (by omega)

theorem pyIndex_nonneg_lt {α : Type} (l : List α) (i : Nat) (hi : i < l.length) :
    pyIndex l (i : Int) = some (l.get ⟨i, hi⟩) := by
  simp only [pyIndex]
  have h1 : ¬ ((i : Int) < 0) := by omega
  rw [if_neg h1]
  have h2 : (0 : Int) ≤ (i : Int) := by omega
  rw [if_pos h2, Int.toNat_ofNat]
  exact List.get?_eq_get hi

/-- C5 (amended): an index that is out of range even after Python's
negative-index offsetting — `index ≥ size()` or `index < -size()` — makes
`__getitem__` raise IndexError at `self.image_filenames[index]`, before any
file is opened: the result carries no sample and an empty list of opened
paths.  For `-size() ≤ index < 0` the original claim fails: Python indexes
from the end and the method does open the file (see the counterexample). -/
theorem claim_C5 (fns labs : List PyStr) (c2i : List (PyStr × Nat)) (index : Int)
    (h : index < -(fns.length : Int) ∨ (fns.length : Int) ≤ index) :
    getitem fns labs c2i index = (none, []) := by
  unfold getitem
  rw [pyIndex_out_of_range fns index h]

theorem claim_C5_witness :
    ((5 : Int) < -((([['p']] : List PyStr)).length : Int) ∨
        ((([['p']] : List PyStr)).length : Int) ≤ 5) ∧
      getitem [['p']] [['a']] [] 5 = (none, []) :=
  ⟨by decide, claim_C5 [['p']] [['a']] [] 5 (by decide)⟩

/-- C5 counterexample: with one sample, the index `-1` lies outside
`[0, size())`, yet `__getitem__` does not raise a bounds error and does
perform I/O: Python resolves `image_filenames[-1]` to the last path and the
method opens that file and returns the sample. -/
theorem claim_C5_counterexample :
    getitem [['p']] [['a']] (convert_label_to_ix [['a']]) (-1) =
        (some (0, ['p']), [['p']]) ∧
      getitem [['p']] [['a']] (convert_label_to_ix [['a']]) (-1) ≠ (none, []) := by
  constructor
  · decide
  · decide

/-- C6: for a valid index `i` in `[0, size())`, `__getitem__` returns the
sample whose label field is exactly the LabelIndex lookup of the label
string parsed from manifest line `i`, and whose filepath field is exactly
the path parsed from manifest line `i` (which is also the one path the call
opened). -/
theorem claim_C6 (fns labs classes : List PyStr)
    (hlen : labs.length = fns.length) (henum : SetEnumOf labs classes)
    (i : Nat) (hi : i < fns.length) :
    ∃ ix : Nat,
      (convert_label_to_ix classes).lookup (labs.get ⟨i, by omega⟩) = some ix ∧
        getitem fns labs (convert_label_to_ix classes) (i : Int) =
          (some (ix, fns.get ⟨i, hi⟩), [fns.get ⟨i, hi⟩]) := by
  have hil : i < labs.length := by omega
  have hmem : labs.get ⟨i, hil⟩ ∈ labs := List.get_mem labs i hil
  obtain ⟨ix, hlk, _, _⟩ := lookup_enumFrom_mem classes 0 _ ((henum.2 _).mpr hmem)
  refine ⟨ix, ?_, ?_⟩
  · rw [convert_eq_enumFrom]
    exact hlk
  · simp only [getitem, pyIndex_nonneg_lt fns i hi, pyIndex_nonneg_lt labs i hil,
      convert_eq_enumFrom, hlk]

theorem claim_C6_witness :
    (([['a'], ['b']] : List PyStr).length = ([['p'], ['q']] : List PyStr).length) ∧
      SetEnumOf [['a'], ['b']] [['b'], ['a']] ∧
      ∃ ix : Nat,
        (convert_label_to_ix [['b'], ['a']]).lookup
            (([['a'], ['b']] : List PyStr).get ⟨1, by decide⟩) = some ix ∧
          getitem [['p'], ['q']] [['a'], ['b']] (convert_label_to_ix [['b'], ['a']])
              ((1 : Nat) : Int) =
            (some (ix, ([['p'], ['q']] : List PyStr).get ⟨1, by decide⟩),
              [([['p'], ['q']] : List PyStr).get ⟨1, by decide⟩]) :=
  have henum : SetEnumOf [['a'], ['b']] [['b'], ['a']] := by
    refine ⟨by decide, ?_⟩
    intro s
    simp only [List.mem_cons, List.not_mem_nil, or_false]
    tauto
  ⟨by decide, henum,
    claim_C6 [['p'], ['q']] [['a'], ['b']] [['b'], ['a']] (by decide) henum 1 (by decide)⟩

/-- C10: the parsed sample arrays and the label dictionary produced by
`ImageDataset.__init__` do not depend on the `root_dir` and `train`
arguments: the constructor always reads the hard-coded file name
`"train_set.txt"`, so for any two values of those arguments (over the same
filesystem and the same set-enumeration order) the resulting
`image_filenames`, `labels` and `class_to_idx` are identical. -/
theorem claim_C10 (readFile : PyStr → PyStr) (classes : List PyStr)
    (r1 r2 : PyStr) (t1 t2 : Bool) :
    (imageDatasetInit readFile classes r1 t1).map
        (fun d => (d.image_filenames, d.labels, d.class_to_idx)) =
      (imageDatasetInit readFile classes r2 t2).map
        (fun d => (d.image_filenames, d.labels, d.class_to_idx)) := by
  unfold imageDatasetInit
  cases loadManifest (readFile trainSetTxt) with
  | none => rfl
  | some pr => cases pr; rfl

/-! ## Claim C1: the three-way split -/

/-- Training-set (path, label) pairs produced by `create_dataset`. -/
def trainPairs (tts : Splitter) (files labels : List PyStr) : List (PyStr × PyStr) :=
  ((create_dataset tts files labels).1.1).zip ((create_dataset tts files labels).1.2)

/-- Validation-set (path, label) pairs produced by `create_dataset`. -/
def valPairs (tts : Splitter) (files labels : List PyStr) : List (PyStr × PyStr) :=
  ((create_dataset tts files labels).2.1.1).zip ((create_dataset tts files labels).2.1.2)

/-- Test-set (path, label) pairs produced by `create_dataset`. -/
def testPairs (tts : Splitter) (files labels : List PyStr) : List (PyStr × PyStr) :=
  ((create_dataset tts files labels).2.2.1).zip ((create_dataset tts files labels).2.2.2)

/-- C1: for any `train_test_split` collaborator satisfying its contract and
any root whose discovery produced `N = files.length` samples with at least
`validation_size + test_size` of them, `create_dataset` partitions the
samples into three sets whose sizes sum to `N`, the validation set having
exactly 2000 samples and the test set exactly 3000; the three sets together
are a permutation of the input samples, and when the input samples are
distinct the three sets are pairwise disjoint. -/
theorem claim_C1 (tts : Splitter) (hspec : SplitterSpec tts)
    (files labels : List PyStr) (hlen : files.length = labels.length)
    (hN : validation_size + test_size ≤ files.length) :
    (create_dataset tts files labels).2.1.1.length = 2000 ∧
      (create_dataset tts files labels).2.2.1.length = 3000 ∧
      (create_dataset tts files labels).1.1.length +
          (create_dataset tts files labels).2.1.1.length +
          (create_dataset tts files labels).2.2.1.length = files.length ∧
      List.Perm
        (trainPairs tts files labels ++ valPairs tts files labels ++
          testPairs tts files labels)
        (files.zip labels) ∧
      ((files.zip labels).Nodup →
        (trainPairs tts files labels).Disjoint (valPairs tts files labels) ∧
          (trainPairs tts files labels).Disjoint (testPairs tts files labels) ∧
          (valPairs tts files labels).Disjoint (testPairs tts files labels)) := by
  obtain ⟨h1tr, h1te, h1ytr, h1yte, h1perm⟩ :=
    hspec files labels (validation_size + test_size) hlen hN
  have hlen2 : (tts files labels (validation_size + test_size)).X_test.length =
      (tts files labels (validation_size + test_size)).y_test.length := by
    rw [h1te, h1yte]
  have hle : test_size ≤ (tts files labels (validation_size + test_size)).X_test.length := by
    rw [h1te]
    exact Nat.le_add_left test_size validation_size
  have ht2 : (⌈((test_size : ℚ) / ((validation_size : ℚ) + (test_size : ℚ))) *
      (((tts files labels (validation_size + test_size)).X_test.length : ℚ))⌉).toNat =
        test_size := by
    rw [h1te]
    norm_num [validation_size, test_size]
    decide
  obtain ⟨h2tr, h2te, h2ytr, h2yte, h2perm⟩ :=
    hspec (tts files labels (validation_size + test_size)).X_test
      (tts files labels (validation_size + test_size)).y_test
      ((⌈((test_size : ℚ) / ((validation_size : ℚ) + (test_size : ℚ))) *
        (((tts files labels (validation_size + test_size)).X_test.length : ℚ))⌉).toNat)
      hlen2 (by rw [ht2]; exact hle)
  rw [ht2] at h2tr h2te h2ytr h2yte h2perm
  have hva : (create_dataset tts files labels).2.1.1.length = validation_size := by
    simp only [create_dataset, ht2]
    rw [h2tr, h1te]
    omega
  have hte : (create_dataset tts files labels).2.2.1.length = test_size := by
    simp only [create_dataset, ht2]
    exact h2te
  have htr : (create_dataset tts files labels).1.1.length =
      files.length - (validation_size + test_size) := by
    simp only [create_dataset]
    exact h1tr
  have hperm : List.Perm
      (trainPairs tts files labels ++ valPairs tts files labels ++
        testPairs tts files labels)
      (files.zip labels) := by
    have hassoc : trainPairs tts files labels ++ valPairs tts files labels ++
        testPairs tts files labels =
        trainPairs tts files labels ++
          (valPairs tts files labels ++ testPairs tts files labels) := by
      rw [List.append_assoc]
    rw [hassoc]
    have hmid : List.Perm (valPairs tts files labels ++ testPairs tts files labels)
        ((tts files labels (validation_size + test_size)).X_test.zip
          (tts files labels (validation_size + test_size)).y_test) := by
      simp only [valPairs, testPairs, create_dataset, ht2]
      exact h2perm
    have hfirst := List.Perm.append_left (trainPairs tts files labels) hmid
    refine hfirst.trans ?_
    simp only [trainPairs, create_dataset]
    exact h1perm
  refine ⟨hva, hte, ?_, hperm, ?_⟩
  · rw [hva, hte, htr]
    have hv : validation_size = 2000 := rfl
    have ht : test_size = 3000 := rfl
    omega
  · intro hnd
    have hall : (trainPairs tts files labels ++ valPairs tts files labels ++
        testPairs tts files labels).Nodup := (hperm.symm).nodup hnd
    rw [List.nodup_append] at hall
    obtain ⟨hab, hc, habc⟩ := hall
    rw [List.nodup_append] at hab
    obtain ⟨ha, hb, hab2⟩ := hab
    rw [List.disjoint_append_left] at habc
    exact ⟨hab2, habc.1, habc.2⟩

/-- A concrete splitter satisfying the `train_test_split` contract, used to
witness claim C1: the first `n - t` samples form the train part and the
last `t` the test part. -/
def tts0 : Splitter := fun X y t =>
  ⟨X.take (X.length - t), X.drop (X.length - t),
    y.take (X.length - t), y.drop (X.length - t)⟩

theorem tts0_spec : SplitterSpec tts0 := by
  intro X y t hlen ht
  refine ⟨?_, ?_, ?_, ?_, ?_⟩
  · simp only [tts0, List.length_take]
    omega
  · simp only [tts0, List.length_drop]
    omega
  · simp only [tts0, List.length_take]
    omega
  · simp only [tts0, List.length_drop]
    omega
  · have hh : (X.take (X.length - t)).length = (y.take (X.length - t)).length := by
      simp only [List.length_take]
      omega
    have e : ((X.take (X.length - t) ++ X.drop (X.length - t)).zip
        (y.take (X.length - t) ++ y.drop (X.length - t))) =
        (X.take (X.length - t)).zip (y.take (X.length - t)) ++
          (X.drop (X.length - t)).zip (y.drop (X.length - t)) := List.zip_append hh
    rw [List.take_append_drop, List.take_append_drop] at e
    simp only [tts0]
    rw [← e]

/-- Concrete 6000-sample path list for the C1 witness. -/
def filesW : List PyStr := List.replicate 6000 ['p']

/-- Concrete 6000-sample label list for the C1 witness. -/
def labelsW : List PyStr := List.replicate 6000 ['a']

theorem claim_C1_witness :
    SplitterSpec tts0 ∧ filesW.length = labelsW.length ∧
      validation_size + test_size ≤ filesW.length ∧
      ((create_dataset tts0 filesW labelsW).2.1.1.length = 2000 ∧
        (create_dataset tts0 filesW labelsW).2.2.1.length = 3000 ∧
        (create_dataset tts0 filesW labelsW).1.1.length +
            (create_dataset tts0 filesW labelsW).2.1.1.length +
            (create_dataset tts0 filesW labelsW).2.2.1.length = filesW.length ∧
        List.Perm
          (trainPairs tts0 filesW labelsW ++ valPairs tts0 filesW labelsW ++
            testPairs tts0 filesW labelsW)
          (filesW.zip labelsW) ∧
        ((filesW.zip labelsW).Nodup →
          (trainPairs tts0 filesW labelsW).Disjoint (valPairs tts0 filesW labelsW) ∧
            (trainPairs tts0 filesW labelsW).Disjoint (testPairs tts0 filesW labelsW) ∧
            (valPairs tts0 filesW labelsW).Disjoint (testPairs tts0 filesW labelsW))) :=
  ⟨tts0_spec, by norm_num [filesW, labelsW], by norm_num [filesW, validation_size, test_size],
    claim_C1 tts0 tts0_spec filesW labelsW (by norm_num [filesW, labelsW])
      (by norm_num [filesW, validation_size, test_size])⟩

end LoadData
